import Mathlib

/-!
Verification of `scripts/parse_pdf_patterns.py`: a resumable PDF pattern
extraction and merge pipeline.  Strings are modelled as `List Char`,
Python dicts as association lists (insertion ordered, like Python dicts),
filesystem and external services as explicit state / oracles.
-/

namespace Xox

/-- Characters matched by Python's regex `\s` (ASCII range). -/
def isPySpace (c : Char) : Bool :=
  c = ' ' || c = '\t' || c = '\n' || c = '\r' || c = '\x0b' || c = '\x0c'

/-- `str.lower()`, modelled character-wise. -/
def pyLower (s : List Char) : List Char := s.map Char.toLower

/-- The character class `[a-z0-9-]` from the slug regexes. -/
def isSlugChar (c : Char) : Bool :=
  ('a' ≤ c && c ≤ 'z') || ('0' ≤ c && c ≤ '9') || c = '-'

/-- `re.sub(r":\s*", repl, s)`: each colon together with the following
whitespace run is replaced by the single character `repl`.  The boolean
records whether we are inside the whitespace run following a colon. -/
def subColonAux (repl : Char) : Bool → List Char → List Char
  | _, [] => []
  | skipping, c :: rest =>
    if skipping && isPySpace c then subColonAux repl true rest
    else if c = ':' then repl :: subColonAux repl true rest
    else c :: subColonAux repl false rest

/-- The scanner state of `subColonAux` after consuming a list: whether
the next character sits in the whitespace run following a colon. -/
def colonStateAux : Bool → List Char → Bool
  | b, [] => b
  | b, c :: rest =>
    if b && isPySpace c then colonStateAux true rest
    else if c = ':' then colonStateAux true rest
    else colonStateAux false rest

/-- `re.sub(r"[^a-z0-9\-]", "-", s)`: every character outside the slug
class becomes a hyphen. -/
def subNonSlug (s : List Char) : List Char :=
  s.map (fun c => if isSlugChar c then c else '-')

/-- `re.sub(r"-+", "-", s)`: collapse every run of hyphens to one hyphen.
The boolean records whether the previous character was (part of) a
hyphen run. -/
def collapseHyphensAux : Bool → List Char → List Char
  | _, [] => []
  | afterHyphen, c :: rest =>
    if c = '-' then
      if afterHyphen then collapseHyphensAux true rest
      else '-' :: collapseHyphensAux true rest
    else c :: collapseHyphensAux false rest

/-- `str.strip(chars)` for a character predicate: drop matching
characters from both ends. -/
def pyStrip (p : Char → Bool) (l : List Char) : List Char :=
  ((l.dropWhile p).reverse.dropWhile p).reverse

/-- `name_to_id` from the script: lowercase, colon+whitespace to hyphen,
non-slug characters to hyphens, collapse hyphen runs, strip hyphens. -/
def name_to_id (name : List Char) : List Char :=
  pyStrip (fun c => c = '-')
    (collapseHyphensAux false (subNonSlug (subColonAux '-' false (pyLower name))))

/-- `re.sub(r"\s+", " ", s)`: collapse whitespace runs to one space. -/
def collapseWsAux : Bool → List Char → List Char
  | _, [] => []
  | afterWs, c :: rest =>
    if isPySpace c then
      if afterWs then collapseWsAux true rest
      else ' ' :: collapseWsAux true rest
    else c :: collapseWsAux false rest

/-- `str.capitalize()`: first character uppercased, the rest lowered. -/
def pyCapitalize : List Char → List Char
  | [] => []
  | c :: rest => c.toUpper :: rest.map Char.toLower

/-- `clean_name` from the script: drop colons, collapse whitespace,
strip, then title-case each hyphen-joined sub-word of each word. -/
def clean_name (name : List Char) : List Char :=
  let s := subColonAux ' ' false name
  let s := pyStrip isPySpace (collapseWsAux false s)
  let parts := s.splitOn ' '
  let titled := parts.map (fun part =>
    List.intercalate ['-'] ((part.splitOn '-').map pyCapitalize))
  List.intercalate [' '] titled

/-- Convenience: the character list of a string literal. -/
def chars (s : String) : List Char := s.data

/-- `needle` is an initial segment of the second list. -/
def startsWithL : List Char → List Char → Bool
  | [], _ => true
  | _ :: _, [] => false
  | a :: as, b :: bs => a = b && startsWithL as bs

/-- Python's `needle in hay` substring test. -/
def containsSub (needle : List Char) : List Char → Bool
  | [] => startsWithL needle []
  | c :: rest => startsWithL needle (c :: rest) || containsSub needle rest

/-- A raw recognized record as handed to `normalize_pattern`: a dict with
optional `name`, `grid_width` and `steps` fields (`raw.get` defaults
apply when a field is missing). -/
structure RawRecord where
  name : Option (List Char)
  grid_width : Option Int
  steps : List (List Char × List Char)
deriving DecidableEq

/-- A catalog entry in the app format produced by `normalize_pattern`. -/
structure CanonicalPattern where
  id : List Char
  name : List Char
  steps : List (List Char × List Char)
deriving DecidableEq

instance : Inhabited RawRecord := ⟨⟨none, none, []⟩⟩

instance : Inhabited CanonicalPattern := ⟨⟨[], [], []⟩⟩

/-- `ALL_TRACK_IDS` from the script. -/
def ALL_TRACK_IDS : List (List Char) :=
  [chars "ac", chars "bd", chars "sd", chars "ch", chars "oh", chars "cy",
   chars "ht", chars "mt", chars "lt", chars "rs", chars "cp", chars "cb"]

/-- `INSTRUMENT_MAP` from the script, in insertion order. -/
def INSTRUMENT_MAP : List (List Char × List Char) :=
  [(chars "AC", chars "ac"), (chars "CY", chars "cy"), (chars "CH", chars "ch"),
   (chars "OH", chars "oh"), (chars "HT", chars "ht"), (chars "MT", chars "mt"),
   (chars "SD", chars "sd"), (chars "RS", chars "rs"), (chars "LT", chars "lt"),
   (chars "CPS", chars "cp"), (chars "CB", chars "cb"), (chars "BD", chars "bd")]

/-- Sixteen `'0'` characters, the substitute for malformed step data. -/
def zeros16 : List Char := List.replicate 16 '0'

/-- The validation in `normalize_pattern`: exactly 16 characters, all of
them `'0'` or `'1'`. -/
def isValidStepStr (s : List Char) : Bool :=
  decide (s.length = 16) && s.all (fun c => c = '0' || c = '1')

/-- One iteration of the `INSTRUMENT_MAP` loop: fetch the raw bit string
(default sixteen zeros), replace it by zeros when invalid. -/
def stepFor (raw_steps : List (List Char × List Char)) (pdf_key : List Char) :
    List Char :=
  let step_str := (raw_steps.lookup pdf_key).getD zeros16
  if isValidStepStr step_str then step_str else zeros16

/-- The steps dict after the `INSTRUMENT_MAP` loop of `normalize_pattern`:
one entry per map item, in insertion order, keyed by track id. -/
def steps0 (raw_steps : List (List Char × List Char)) :
    List (List Char × List Char) :=
  INSTRUMENT_MAP.map (fun kv => (kv.2, stepFor raw_steps kv.1))

/-- The "ensure all 12 tracks present" loop of `normalize_pattern`. -/
def fillMissing (tids : List (List Char))
    (st : List (List Char × List Char)) : List (List Char × List Char) :=
  tids.foldl (fun st tid =>
    if (st.lookup tid).isSome then st else st ++ [(tid, zeros16)]) st

/-- `normalize_pattern` from the script: reject non-16-wide grids, reject
names containing "break", reject empty slugs; otherwise build the steps
dict over `INSTRUMENT_MAP` (invalid strings become zeros) and fill any
track id still missing with zeros. -/
def normalize_pattern (raw : RawRecord) : Option CanonicalPattern :=
  let name := raw.name.getD []
  let grid_width := raw.grid_width.getD 0
  if grid_width ≠ 16 then none
  else if containsSub (chars "break") (pyLower name) then none
  else
    let pattern_id := name_to_id name
    if pattern_id = [] then none
    else
      let display_name := clean_name name
      let steps := fillMissing ALL_TRACK_IDS (steps0 raw.steps)
      some { id := pattern_id, name := display_name, steps := steps }

/-- Sample record accepted by `normalize_pattern` (no step data at all,
so every instrument is zero-filled). -/
def sampleRaw : RawRecord := ⟨some (chars "Rock: 3"), some 16, []⟩

/-- The catalog entry `normalize_pattern` produces for `sampleRaw`. -/
def samplePattern : CanonicalPattern :=
  (normalize_pattern sampleRaw).getD ⟨[], [], []⟩

/-- Sample record whose AC row is malformed (the bit string "xx"). -/
def sampleRawBad : RawRecord :=
  ⟨some (chars "Rock: 3"), some 16, [(chars "AC", chars "xx")]⟩

/-- The catalog entry `normalize_pattern` produces for `sampleRawBad`. -/
def samplePatternBad : CanonicalPattern :=
  (normalize_pattern sampleRawBad).getD ⟨[], [], []⟩

/-! ### Page cache and extraction driver (`process_page`, `do_parse`) -/

/-- Rendered page image bytes (opaque payload of the render step). -/
def ImageBytes := List Nat

/-- The Python exception kinds relevant to `process_page`: the `except`
clause catches `ValueError` and `json.JSONDecodeError` only; `pdftoppm`
failures surface as `CalledProcessError` / `RuntimeError`, and the
recognition client may raise other types. -/
inductive PyExc where
  | valueError (msg : List Char)
  | jsonDecodeError (msg : List Char)
  | runtimeError (msg : List Char)
  | calledProcessError (msg : List Char)
  | otherError (msg : List Char)
deriving DecidableEq

/-- The message `str(e)` written to the error marker file. -/
def PyExc.msg : PyExc → List Char
  | .valueError m | .jsonDecodeError m | .runtimeError m
  | .calledProcessError m | .otherError m => m

/-- Which exceptions the `try` around `extract_patterns_from_image` in
`process_page` catches. -/
def caughtByProcessPage : PyExc → Bool
  | .valueError _ => true
  | .jsonDecodeError _ => true
  | _ => false

/-- The page-scoped slice of the cache directory: content of
`page_NNN.json` if it exists, and of `page_NNN.error` if it exists. -/
structure PageFS where
  cacheFile : Option (List CanonicalPattern)
  errorFile : Option (List Char)
deriving DecidableEq

/-- The two external collaborators for one page: `render_page` (pdftoppm)
and `extract_patterns_from_image` (the recognition service). -/
structure PageOracle where
  render : Except PyExc ImageBytes
  extract : ImageBytes → Except PyExc (List RawRecord)

/-- Result of running `process_page` on one page: the returned value (or
the propagated exception), the page filesystem afterwards, and how many
external render / recognition calls were made. -/
structure PageOutcome where
  result : Except PyExc (List CanonicalPattern)
  fs : PageFS
  renderCalls : Nat
  extractCalls : Nat

/-- `process_page` from the script: short-circuit on an existing cache
file; otherwise render, recognize (writing an error marker and returning
`[]` on a caught exception), normalize, and write the cache file.
Uncaught exceptions propagate. -/
def process_page (oracle : PageOracle) (fs : PageFS) : PageOutcome :=
  match fs.cacheFile with
  | some cached =>
    { result := .ok cached, fs := fs, renderCalls := 0, extractCalls := 0 }
  | none =>
    match oracle.render with
    | .error e =>
      { result := .error e, fs := fs, renderCalls := 1, extractCalls := 0 }
    | .ok image_data =>
      match oracle.extract image_data with
      | .error e =>
        if caughtByProcessPage e then
          { result := .ok [],
            fs := { fs with errorFile := some e.msg },
            renderCalls := 1, extractCalls := 1 }
        else
          { result := .error e, fs := fs, renderCalls := 1, extractCalls := 1 }
      | .ok raw_patterns =>
        let patterns := raw_patterns.filterMap normalize_pattern
        { result := .ok patterns,
          fs := { fs with cacheFile := some patterns },
          renderCalls := 1, extractCalls := 1 }

/-- The page loop of `do_parse`: pages of the requested range in
ascending order, each with its oracle and cache state.  An exception
escaping `process_page` aborts the loop (nothing in `do_parse` catches);
otherwise the per-page results are collected. -/
def runRange : List (PageOracle × PageFS) →
    Except PyExc (List (List CanonicalPattern))
  | [] => .ok []
  | (oracle, fs) :: rest =>
    match (process_page oracle fs).result with
    | .error e => .error e
    | .ok patterns => (runRange rest).map (patterns :: ·)

/-! ### Catalog merger (`do_merge`) -/

/-- Boolean lexicographic order on identifier strings (Python string
comparison by code point, a prefix preceding its extensions). -/
def lexLe : List Char → List Char → Bool
  | [], _ => true
  | _ :: _, [] => false
  | a :: as, b :: bs => if a = b then lexLe as bs else decide (a < b)

/-- An insertion-ordered dict keyed by pattern id, as Python dicts are. -/
abbrev PatternDict := List (List Char × CanonicalPattern)

/-- `d[k] = v` on a Python dict: overwrite in place when the key exists,
append otherwise. -/
def dictUpsert (d : PatternDict) (k : List Char) (v : CanonicalPattern) :
    PatternDict :=
  if (d.lookup k).isSome then
    d.map (fun kv => if kv.1 = k then (k, v) else kv)
  else d ++ [(k, v)]

/-- Insert each pattern of a page file under its id, in order. -/
def dictInsertAll (d : PatternDict) (ps : List CanonicalPattern) : PatternDict :=
  ps.foldl (fun d p => dictUpsert d p.id p) d

/-- `parsed`: all page files in ascending page order, deduplicated by id
with later pages winning. -/
def buildParsed (pageFiles : List (List CanonicalPattern)) : PatternDict :=
  pageFiles.foldl dictInsertAll []

/-- `{p["id"]: p for p in ...}` over the existing catalog list. -/
def buildDict (ps : List CanonicalPattern) : PatternDict := dictInsertAll [] ps

/-- `merged.update(parsed)`: upsert every entry of `src` into `d`. -/
def dictUpdate (d : PatternDict) (src : PatternDict) : PatternDict :=
  src.foldl (fun d kv => dictUpsert d kv.1 kv.2) d

/-- Order on ids used for the sorted id lists a merge reports. -/
def idLe (a b : List Char) : Prop := lexLe a b = true

/-- Order on catalog entries for the final `sorted(..., key=id)`. -/
def patLe (p q : CanonicalPattern) : Prop := lexLe p.id q.id = true

instance : DecidableRel idLe :=
  fun a b => inferInstanceAs (Decidable (lexLe a b = true))

instance : DecidableRel patLe :=
  fun p q => inferInstanceAs (Decidable (lexLe p.id q.id = true))

/-- `sorted(ids)`. -/
def sortIds (l : List (List Char)) : List (List Char) := l.insertionSort idLe

/-- What a merge invocation reports and leaves on disk: the sorted id
lists for new and updated entries, and the catalog file content after
the call. -/
structure MergeReport where
  newIds : List (List Char)
  updatedIds : List (List Char)
  catalog : List CanonicalPattern
deriving DecidableEq

/-- `do_merge` from the script.  `pageFiles` are the page cache files in
ascending page order, `existingList` is the `"patterns"` list of the
catalog file.  New ids are the parsed ids absent from the existing
catalog, updated ids are those present in both.  A dry run only reports;
otherwise the existing dict updated with the parsed dict is written
back, sorted by id. -/
def do_merge (pageFiles : List (List CanonicalPattern))
    (existingList : List CanonicalPattern) (dry_run : Bool) : MergeReport :=
  let parsed := buildParsed pageFiles
  let existing_patterns := buildDict existingList
  let new_ids := (parsed.map Prod.fst).filter
    (fun k => (existing_patterns.lookup k).isNone)
  let updated_ids := (parsed.map Prod.fst).filter
    (fun k => (existing_patterns.lookup k).isSome)
  if dry_run then
    { newIds := sortIds new_ids, updatedIds := sortIds updated_ids,
      catalog := existingList }
  else
    let merged := dictUpdate existing_patterns parsed
    let sorted_patterns := (merged.map Prod.snd).insertionSort patLe
    { newIds := sortIds new_ids, updatedIds := sortIds updated_ids,
      catalog := sorted_patterns }

/-- Concrete catalog entry for the merge scenarios. -/
def rock3 : CanonicalPattern := ⟨chars "rock-3", chars "Rock 3", []⟩

/-- A different entry with the same id (an updated recognition). -/
def rock3v2 : CanonicalPattern :=
  ⟨chars "rock-3", chars "Rock 3", [(chars "ac", zeros16)]⟩

/-- A second, new entry. -/
def break2 : CanonicalPattern := ⟨chars "break-2", chars "Break 2", []⟩

/-! ### Claims about the page driver -/

/-! ### Order and dictionary lemmas for the merger -/

/-- `lexLe` is total. -/
theorem lexLe_total : ∀ a b : List Char, lexLe a b = true ∨ lexLe b a = true := by
  intro a
  induction a with
  | nil => intro b; exact Or.inl rfl
  | cons x as ih =>
    intro b
    cases b with
    | nil => exact Or.inr rfl
    | cons y bs =>
      by_cases hxy : x = y
      · subst hxy
        rcases ih bs with h | h
        · exact Or.inl (by simp [lexLe, h])
        · exact Or.inr (by simp [lexLe, h])
      · rcases lt_or_gt_of_ne hxy with h | h
        · exact Or.inl (by simp [lexLe, hxy, h])
        · exact Or.inr (by simp [lexLe, Ne.symm hxy, h])

/-- `lexLe` is transitive. -/
theorem lexLe_trans : ∀ {a b c : List Char},
    lexLe a b = true → lexLe b c = true → lexLe a c = true := by
  intro a
  induction a with
  | nil => intro b c _ _; rfl
  | cons x as ih =>
    intro b c h1 h2
    cases b with
    | nil => simp [lexLe] at h1
    | cons y bs =>
      cases c with
      | nil => simp [lexLe] at h2
      | cons z cs =>
        by_cases hxy : x = y
        · subst hxy
          by_cases hyz : x = z
          · subst hyz
            simp only [lexLe, if_pos rfl] at h1 h2 ⊢
            exact ih h1 h2
          · simp only [lexLe, if_pos rfl] at h1
            simp only [lexLe, if_neg hyz] at h2 ⊢
            exact h2
        · simp only [lexLe, if_neg hxy] at h1
          rw [decide_eq_true_eq] at h1
          by_cases hyz : y = z
          · subst hyz
            simp only [lexLe, if_neg hxy, decide_eq_true_eq]
            exact h1
          · simp only [lexLe, if_neg hyz, decide_eq_true_eq] at h2
            have hxz : x < z := lt_trans h1 h2
            simp only [lexLe, if_neg (ne_of_lt hxz), decide_eq_true_eq]
            exact hxz

instance : IsTotal (List Char) idLe := ⟨fun a b => lexLe_total a b⟩

instance : IsTrans (List Char) idLe := ⟨fun _ _ _ => lexLe_trans⟩

instance : IsTotal CanonicalPattern patLe := ⟨fun p q => lexLe_total p.id q.id⟩

instance : IsTrans CanonicalPattern patLe := ⟨fun _ _ _ => lexLe_trans⟩

/-- A key found in an association list is among its listed keys. -/
theorem mem_keys_of_lookup_isSome {β : Type} {l : List (List Char × β)}
    {k : List Char} (h : (l.lookup k).isSome) : k ∈ l.map Prod.fst := by
  rw [List.lookup_isSome_iff] at h
  obtain ⟨p, hp, hk⟩ := h
  rw [List.mem_map]
  exact ⟨p, hp, (beq_iff_eq.mp hk).symm⟩

/-- An association list has a hit for every key it lists. -/
theorem lookup_isSome_of_mem_keys {β : Type} {l : List (List Char × β)}
    {k : List Char} (h : k ∈ l.map Prod.fst) : (l.lookup k).isSome := by
  rw [List.lookup_isSome_iff]
  obtain ⟨p, hp, hk⟩ := List.mem_map.mp h
  exact ⟨p, hp, by simp [hk]⟩

/-- `List.lookup` on a cons cell, stated with a decidable `if`. -/
theorem lookup_cons_ite {β : Type} (a k : List Char) (b : β)
    (es : List (List Char × β)) :
    ((a, b) :: es).lookup k = if k = a then some b else es.lookup k := by
  rw [List.lookup_cons]
  by_cases h : k = a
  · subst h
    simp
  · simp [beq_eq_false_iff_ne.mpr h, h]

/-- Looking up in the overwrite branch of an upsert. -/
theorem lookup_upd_map (d : PatternDict) (k k' : List Char)
    (v : CanonicalPattern) :
    (d.map (fun kv => if kv.1 = k then (k, v) else kv)).lookup k' =
      if k' = k then (if (d.lookup k).isSome then some v else none)
      else d.lookup k' := by
  induction d with
  | nil => simp only [List.map_nil, List.lookup_nil]; split <;> simp
  | cons kv rest ih =>
    obtain ⟨a, b⟩ := kv
    by_cases hak : a = k
    · subst hak
      have hhead : (if ((a, b) : List Char × CanonicalPattern).1 = a
          then (a, v) else (a, b)) = (a, v) := by simp
      rw [List.map_cons, hhead]
      by_cases hk' : k' = a
      · simp [lookup_cons_ite, hk']
      · simp only [lookup_cons_ite, if_neg hk', ih]
    · have hhead : (if ((a, b) : List Char × CanonicalPattern).1 = k
          then (k, v) else (a, b)) = (a, b) := by simp [hak]
      rw [List.map_cons, hhead]
      have hka : k ≠ a := fun h => hak h.symm
      by_cases hk' : k' = a
      · have hkk : k' ≠ k := fun h => hak (hk'.symm.trans h)
        simp only [lookup_cons_ite, if_pos hk', if_neg hkk]
      · simp only [lookup_cons_ite, if_neg hk', if_neg hka]
        exact ih

/-- The Python-dict upsert behaves like a pointwise update on lookups. -/
theorem lookup_dictUpsert (d : PatternDict) (k k' : List Char)
    (v : CanonicalPattern) :
    (dictUpsert d k v).lookup k' = if k' = k then some v else d.lookup k' := by
  unfold dictUpsert
  split
  · rename_i hs
    rw [lookup_upd_map]
    by_cases hk' : k' = k
    · simp [hk', hs]
    · simp [hk']
  · rename_i hs
    rw [List.lookup_append]
    by_cases hk' : k' = k
    · subst hk'
      have hnone : d.lookup k' = none :=
        Option.not_isSome_iff_eq_none.mp hs
      rw [hnone, lookup_cons_ite, if_pos rfl]
      simp
    · rw [lookup_cons_ite, if_neg hk', if_neg hk', List.lookup_nil]
      simp

/-- Keys after an upsert: the new key plus the old ones. -/
theorem mem_keys_dictUpsert (d : PatternDict) (k k' : List Char)
    (v : CanonicalPattern) :
    k' ∈ (dictUpsert d k v).map Prod.fst ↔
      k' = k ∨ k' ∈ d.map Prod.fst := by
  constructor
  · intro h
    have hs := lookup_isSome_of_mem_keys h
    rw [lookup_dictUpsert] at hs
    by_cases hk : k' = k
    · exact Or.inl hk
    · rw [if_neg hk] at hs
      exact Or.inr (mem_keys_of_lookup_isSome hs)
  · intro h
    apply mem_keys_of_lookup_isSome
    rw [lookup_dictUpsert]
    rcases h with rfl | h
    · simp
    · by_cases hk : k' = k
      · simp [hk]
      · rw [if_neg hk]
        exact lookup_isSome_of_mem_keys h

/-- A successful lookup comes from an actual entry. -/
theorem mem_of_lookup_eq_some {d : PatternDict} {k : List Char}
    {v : CanonicalPattern} (h : d.lookup k = some v) : (k, v) ∈ d := by
  induction d with
  | nil => simp at h
  | cons kv rest ih =>
    obtain ⟨a, b⟩ := kv
    by_cases hk : k = a
    · subst hk
      rw [lookup_cons_ite, if_pos rfl, Option.some_inj] at h
      subst h
      exact List.mem_cons_self _ _
    · rw [lookup_cons_ite, if_neg hk] at h
      exact List.mem_cons_of_mem _ (ih h)

/-- With distinct keys, every entry is found by lookup. -/
theorem lookup_of_mem_nodup {d : PatternDict} {k : List Char}
    {v : CanonicalPattern} (hn : (d.map Prod.fst).Nodup)
    (h : (k, v) ∈ d) : d.lookup k = some v := by
  induction d with
  | nil => cases h
  | cons kv rest ih =>
    obtain ⟨a, b⟩ := kv
    rcases List.mem_cons.mp h with heq | hmem
    · cases heq
      rw [lookup_cons_ite, if_pos rfl]
    · have hka : k ≠ a := by
        intro hk
        subst hk
        exact (List.nodup_cons.mp hn).1
          (List.mem_map.mpr ⟨(k, v), hmem, rfl⟩)
      rw [lookup_cons_ite, if_neg hka]
      exact ih (List.nodup_cons.mp hn).2 hmem

/-- An absent key looks up to nothing. -/
theorem lookup_eq_none_of_not_mem_keys {d : PatternDict} {k : List Char}
    (h : k ∉ d.map Prod.fst) : d.lookup k = none := by
  cases hl : d.lookup k with
  | none => rfl
  | some v => exact absurd (mem_keys_of_lookup_isSome (by simp [hl])) h

/-- Keys accumulated by inserting one page's patterns. -/
theorem mem_keys_dictInsertAll (ps : List CanonicalPattern) :
    ∀ (d : PatternDict) (k : List Char),
      k ∈ (dictInsertAll d ps).map Prod.fst ↔
        k ∈ d.map Prod.fst ∨ ∃ p ∈ ps, p.id = k := by
  induction ps with
  | nil => intro d k; simp [dictInsertAll]
  | cons p rest ih =>
    intro d k
    show k ∈ ((dictInsertAll (dictUpsert d p.id p) rest).map Prod.fst) ↔ _
    rw [ih, mem_keys_dictUpsert]
    simp only [List.mem_cons]
    constructor
    · rintro ((rfl | h) | ⟨q, hq, rfl⟩)
      · exact Or.inr ⟨p, Or.inl rfl, rfl⟩
      · exact Or.inl h
      · exact Or.inr ⟨q, Or.inr hq, rfl⟩
    · rintro (h | ⟨q, (rfl | hq), rfl⟩)
      · exact Or.inl (Or.inr h)
      · exact Or.inl (Or.inl rfl)
      · exact Or.inr ⟨q, hq, rfl⟩

/-- Keys accumulated across a list of page files. -/
theorem mem_keys_foldl_pages (pf : List (List CanonicalPattern)) :
    ∀ (d : PatternDict) (k : List Char),
      k ∈ ((pf.foldl dictInsertAll d).map Prod.fst) ↔
        k ∈ d.map Prod.fst ∨ ∃ pats ∈ pf, ∃ p ∈ pats, p.id = k := by
  induction pf with
  | nil => intro d k; simp
  | cons pats rest ih =>
    intro d k
    show k ∈ ((rest.foldl dictInsertAll (dictInsertAll d pats)).map Prod.fst)
      ↔ _
    rw [ih, mem_keys_dictInsertAll]
    simp only [List.mem_cons]
    constructor
    · rintro ((h | h) | ⟨ps, hps, hp⟩)
      · exact Or.inl h
      · exact Or.inr ⟨pats, Or.inl rfl, h⟩
      · exact Or.inr ⟨ps, Or.inr hps, hp⟩
    · rintro (h | ⟨ps, (rfl | hps), hp⟩)
      · exact Or.inl (Or.inl h)
      · exact Or.inl (Or.inr hp)
      · exact Or.inr ⟨ps, hps, hp⟩

/-- The ids `parsed` holds are exactly the ids appearing in page files. -/
theorem mem_keys_buildParsed (pf : List (List CanonicalPattern))
    (k : List Char) :
    k ∈ (buildParsed pf).map Prod.fst ↔ ∃ pats ∈ pf, ∃ p ∈ pats, p.id = k := by
  unfold buildParsed
  rw [mem_keys_foldl_pages]
  simp

/-- The ids of the existing-catalog dict are the ids of its entries. -/
theorem mem_keys_buildDict (ps : List CanonicalPattern) (k : List Char) :
    k ∈ (buildDict ps).map Prod.fst ↔ ∃ p ∈ ps, p.id = k := by
  unfold buildDict
  rw [mem_keys_dictInsertAll]
  simp

/-- Sorting the reported id lists does not change membership. -/
theorem mem_sortIds (l : List (List Char)) (k : List Char) :
    k ∈ sortIds l ↔ k ∈ l :=
  (List.perm_insertionSort idLe l).mem_iff

/-- C8: a dry-run merge performs zero mutation: for every set of page
results and every existing catalog, the reported new ids are exactly the
ids present in the page results and absent from the catalog, the
reported updated ids are exactly those present in both, and the catalog
on disk is left unchanged. -/
theorem dry_run_merge (pf : List (List CanonicalPattern))
    (ex : List CanonicalPattern) :
    (do_merge pf ex true).catalog = ex ∧
    (∀ k, k ∈ (do_merge pf ex true).newIds ↔
        ((∃ pats ∈ pf, ∃ p ∈ pats, p.id = k) ∧ ¬ ∃ p ∈ ex, p.id = k)) ∧
    (∀ k, k ∈ (do_merge pf ex true).updatedIds ↔
        ((∃ pats ∈ pf, ∃ p ∈ pats, p.id = k) ∧ ∃ p ∈ ex, p.id = k)) := by
  refine ⟨rfl, ?_, ?_⟩
  · intro k
    show k ∈ sortIds (((buildParsed pf).map Prod.fst).filter
      (fun k => ((buildDict ex).lookup k).isNone)) ↔ _
    rw [mem_sortIds, List.mem_filter]
    constructor
    · rintro ⟨hk, hp⟩
      refine ⟨(mem_keys_buildParsed pf k).mp hk, ?_⟩
      intro hex
      have hs := lookup_isSome_of_mem_keys ((mem_keys_buildDict ex k).mpr hex)
      rw [Option.isNone_iff_eq_none] at hp
      rw [hp] at hs
      cases hs
    · rintro ⟨hpf, hex⟩
      refine ⟨(mem_keys_buildParsed pf k).mpr hpf, ?_⟩
      have hnm : k ∉ (buildDict ex).map Prod.fst :=
        fun hm => hex ((mem_keys_buildDict ex k).mp hm)
      rw [lookup_eq_none_of_not_mem_keys hnm]
      rfl
  · intro k
    show k ∈ sortIds (((buildParsed pf).map Prod.fst).filter
      (fun k => ((buildDict ex).lookup k).isSome)) ↔ _
    rw [mem_sortIds, List.mem_filter]
    constructor
    · rintro ⟨hk, hp⟩
      exact ⟨(mem_keys_buildParsed pf k).mp hk,
        (mem_keys_buildDict ex k).mp (mem_keys_of_lookup_isSome hp)⟩
    · rintro ⟨hpf, hex⟩
      exact ⟨(mem_keys_buildParsed pf k).mpr hpf,
        lookup_isSome_of_mem_keys ((mem_keys_buildDict ex k).mpr hex)⟩

/-- Witness for C8 at the spec's scenario: catalog holding rock-3, page
results holding an updated rock-3 and a new break-2. -/
theorem dry_run_merge_witness :
    (do_merge [[rock3v2, break2]] [rock3] true).catalog = [rock3] ∧
    (∀ k, k ∈ (do_merge [[rock3v2, break2]] [rock3] true).newIds ↔
        ((∃ pats ∈ [[rock3v2, break2]], ∃ p ∈ pats, p.id = k) ∧
          ¬ ∃ p ∈ [rock3], p.id = k)) ∧
    (∀ k, k ∈ (do_merge [[rock3v2, break2]] [rock3] true).updatedIds ↔
        ((∃ pats ∈ [[rock3v2, break2]], ∃ p ∈ pats, p.id = k) ∧
          ∃ p ∈ [rock3], p.id = k)) :=
  dry_run_merge [[rock3v2, break2]] [rock3]

/-- An upsert keyed by the entry's own id preserves key distinctness and
key/value consistency. -/
theorem goodDict_dictUpsert {d : PatternDict}
    (hn : (d.map Prod.fst).Nodup) (hv : ∀ kv ∈ d, kv.2.id = kv.1)
    (k : List Char) (v : CanonicalPattern) (hk : v.id = k) :
    ((dictUpsert d k v).map Prod.fst).Nodup ∧
      ∀ kv ∈ dictUpsert d k v, kv.2.id = kv.1 := by
  unfold dictUpsert
  split
  · constructor
    · have hkeys : (d.map (fun kv => if kv.1 = k then (k, v) else kv)).map
          Prod.fst = d.map Prod.fst := by
        rw [List.map_map]
        apply List.map_congr_left
        intro kv _
        by_cases h : kv.1 = k
        · simp [h]
        · simp [h]
      rw [hkeys]
      exact hn
    · intro kv hkv
      obtain ⟨kv0, hkv0, rfl⟩ := List.mem_map.mp hkv
      by_cases h : kv0.1 = k
      · simp [h, hk]
      · simpa [h] using hv kv0 hkv0
  · rename_i hs
    constructor
    · rw [List.map_append]
      refine List.Nodup.append hn (by simp) ?_
      intro x hx
      simp only [List.map_cons, List.map_nil, List.mem_singleton]
      intro hxid
      subst hxid
      exact hs (lookup_isSome_of_mem_keys hx)
    · intro kv hkv
      rcases List.mem_append.mp hkv with h | h
      · exact hv kv h
      · rw [List.mem_singleton] at h
        subst h
        exact hk

/-- Inserting a page's patterns preserves the dict invariants. -/
theorem goodDict_dictInsertAll (ps : List CanonicalPattern) :
    ∀ d : PatternDict, (d.map Prod.fst).Nodup →
      (∀ kv ∈ d, kv.2.id = kv.1) →
      ((dictInsertAll d ps).map Prod.fst).Nodup ∧
        ∀ kv ∈ dictInsertAll d ps, kv.2.id = kv.1 := by
  induction ps with
  | nil => intro d hn hv; exact ⟨hn, hv⟩
  | cons p rest ih =>
    intro d hn hv
    have h' := goodDict_dictUpsert hn hv p.id p rfl
    exact ih (dictUpsert d p.id p) h'.1 h'.2

/-- Folding whole page files preserves the dict invariants. -/
theorem goodDict_foldl_pages (pf : List (List CanonicalPattern)) :
    ∀ d : PatternDict, (d.map Prod.fst).Nodup →
      (∀ kv ∈ d, kv.2.id = kv.1) →
      (((pf.foldl dictInsertAll d).map Prod.fst).Nodup ∧
        ∀ kv ∈ pf.foldl dictInsertAll d, kv.2.id = kv.1) := by
  induction pf with
  | nil => intro d hn hv; exact ⟨hn, hv⟩
  | cons pats rest ih =>
    intro d hn hv
    have h' := goodDict_dictInsertAll pats d hn hv
    exact ih (dictInsertAll d pats) h'.1 h'.2

/-- The parsed dict has distinct keys, each an entry's own id. -/
theorem goodDict_buildParsed (pf : List (List CanonicalPattern)) :
    ((buildParsed pf).map Prod.fst).Nodup ∧
      ∀ kv ∈ buildParsed pf, kv.2.id = kv.1 :=
  goodDict_foldl_pages pf [] (by simp) (by simp)

/-- The existing-catalog dict has the same invariants. -/
theorem goodDict_buildDict (ps : List CanonicalPattern) :
    ((buildDict ps).map Prod.fst).Nodup ∧
      ∀ kv ∈ buildDict ps, kv.2.id = kv.1 :=
  goodDict_dictInsertAll ps [] (by simp) (by simp)

/-- Updating the catalog dict preserves the dict invariants. -/
theorem goodDict_dictUpdate (src : PatternDict) :
    ∀ d : PatternDict, (d.map Prod.fst).Nodup →
      (∀ kv ∈ d, kv.2.id = kv.1) → (∀ kv ∈ src, kv.2.id = kv.1) →
      (((dictUpdate d src).map Prod.fst).Nodup ∧
        ∀ kv ∈ dictUpdate d src, kv.2.id = kv.1) := by
  induction src with
  | nil => intro d hn hv _; exact ⟨hn, hv⟩
  | cons kv rest ih =>
    intro d hn hv hsrc
    have h' := goodDict_dictUpsert hn hv kv.1 kv.2
      (hsrc kv (List.mem_cons_self _ _))
    exact ih (dictUpsert d kv.1 kv.2) h'.1 h'.2
      (fun q hq => hsrc q (List.mem_cons_of_mem _ hq))

/-- Looking up through `merged.update(parsed)`: parsed entries win. -/
theorem lookup_dictUpdate (src : PatternDict) :
    ∀ (d : PatternDict) (k : List Char), (src.map Prod.fst).Nodup →
      (dictUpdate d src).lookup k = (src.lookup k).or (d.lookup k) := by
  induction src with
  | nil => intro d k _; simp [dictUpdate]
  | cons kv rest ih =>
    intro d k hn
    obtain ⟨a, b⟩ := kv
    rw [List.map_cons] at hn
    have hn' := List.nodup_cons.mp hn
    show (dictUpdate (dictUpsert d a b) rest).lookup k = _
    rw [ih (dictUpsert d a b) k hn'.2, lookup_dictUpsert, lookup_cons_ite]
    by_cases hk : k = a
    · subst hk
      have hrest : rest.lookup k = none :=
        lookup_eq_none_of_not_mem_keys hn'.1
      simp [hrest, Option.or]
    · rw [if_neg hk, if_neg hk]

/-- Inserting entries whose keys are fresh and mutually distinct simply
appends them in order. -/
theorem dictInsertAll_of_fresh (ps : List CanonicalPattern) :
    ∀ d : PatternDict, (ps.map CanonicalPattern.id).Nodup →
      (∀ p ∈ ps, d.lookup p.id = none) →
      dictInsertAll d ps = d ++ ps.map (fun p => (p.id, p)) := by
  induction ps with
  | nil => intro d _ _; simp [dictInsertAll]
  | cons p rest ih =>
    intro d hn hf
    rw [List.map_cons] at hn
    have hn' := List.nodup_cons.mp hn
    have hnone : d.lookup p.id = none := hf p (List.mem_cons_self _ _)
    have hup : dictUpsert d p.id p = d ++ [(p.id, p)] := by
      unfold dictUpsert
      rw [hnone]
      simp
    have hfresh : ∀ q ∈ rest, (d ++ [(p.id, p)]).lookup q.id = none := by
      intro q hq
      have hqp : q.id ≠ p.id := by
        intro h
        exact hn'.1 (h ▸ List.mem_map.mpr ⟨q, hq, rfl⟩)
      rw [List.lookup_append, hf q (List.mem_cons_of_mem _ hq),
        lookup_cons_ite, if_neg hqp, List.lookup_nil]
      rfl
    show dictInsertAll (dictUpsert d p.id p) rest = _
    rw [hup, ih (d ++ [(p.id, p)]) hn'.2 hfresh, List.append_assoc]
    rfl

/-- Rebuilding a dict from a catalog list with distinct ids pairs every
entry with its id, in order. -/
theorem buildDict_eq_map {l : List CanonicalPattern}
    (hn : (l.map CanonicalPattern.id).Nodup) :
    buildDict l = l.map (fun p => (p.id, p)) := by
  unfold buildDict
  rw [dictInsertAll_of_fresh l [] hn (fun p _ => rfl)]
  rfl

/-- Upserting a value the dict already holds changes nothing. -/
theorem dictUpsert_eq_self {d : PatternDict} (hn : (d.map Prod.fst).Nodup)
    {k : List Char} {v : CanonicalPattern} (hl : d.lookup k = some v) :
    dictUpsert d k v = d := by
  unfold dictUpsert
  rw [hl]
  simp only [Option.isSome_some, if_true]
  have hcongr : ∀ kv ∈ d, (if kv.1 = k then (k, v) else kv) = kv := by
    intro kv hkv
    obtain ⟨ka, va⟩ := kv
    by_cases h : ka = k
    · subst h
      have hlk : d.lookup ka = some va := lookup_of_mem_nodup hn hkv
      have hva : va = v := by
        rw [hlk] at hl
        exact Option.some_inj.mp hl
      simp [hva]
    · simp [h]
  calc d.map (fun kv => if kv.1 = k then (k, v) else kv)
      = d.map id := List.map_congr_left hcongr
  _ = d := List.map_id d

/-- Updating with entries the dict already holds changes nothing. -/
theorem dictUpdate_eq_self (src : PatternDict) :
    ∀ d : PatternDict, (d.map Prod.fst).Nodup →
      (∀ kv ∈ src, d.lookup kv.1 = some kv.2) →
      dictUpdate d src = d := by
  induction src with
  | nil => intro d _ _; rfl
  | cons kv rest ih =>
    intro d hn h
    show dictUpdate (dictUpsert d kv.1 kv.2) rest = d
    rw [dictUpsert_eq_self hn (h kv (List.mem_cons_self _ _))]
    exact ih d hn (fun q hq => h q (List.mem_cons_of_mem _ hq))

/-- Unfolding of a non-dry-run merge into its three components. -/
theorem do_merge_false_parts (pf : List (List CanonicalPattern))
    (ex : List CanonicalPattern) :
    do_merge pf ex false =
      { newIds := sortIds (((buildParsed pf).map Prod.fst).filter
          (fun k => ((buildDict ex).lookup k).isNone)),
        updatedIds := sortIds (((buildParsed pf).map Prod.fst).filter
          (fun k => ((buildDict ex).lookup k).isSome)),
        catalog := ((dictUpdate (buildDict ex)
          (buildParsed pf)).map Prod.snd).insertionSort patLe } := rfl

/-- C1 counterexample: merging the same single page result twice from an
empty catalog reports the pattern as updated on the second run — the
second run's `updated` delta is not empty, because "updated" means
"present in both", not "value changed". -/
theorem merge_second_run_cex :
    (do_merge [[rock3]] (do_merge [[rock3]] [] false).catalog
        false).updatedIds = [chars "rock-3"] ∧
    (do_merge [[rock3]] (do_merge [[rock3]] [] false).catalog
        false).updatedIds ≠ [] := by
  constructor <;> decide

/-- C1 amended: a second non-dry-run merge with the same page results
yields an identical catalog and zero new ids, but its `updated` list is
the full set of merged ids (sorted), since `do_merge` classifies an id
as updated whenever it is present in both the page results and the
catalog, regardless of whether its value changed. -/
theorem merge_second_run (pf : List (List CanonicalPattern))
    (ex : List CanonicalPattern) :
    (do_merge pf (do_merge pf ex false).catalog false).catalog =
      (do_merge pf ex false).catalog ∧
    (do_merge pf (do_merge pf ex false).catalog false).newIds = [] ∧
    (do_merge pf (do_merge pf ex false).catalog false).updatedIds =
      sortIds ((buildParsed pf).map Prod.fst) := by
  have hGp := goodDict_buildParsed pf
  have hGe := goodDict_buildDict ex
  have hGm := goodDict_dictUpdate (buildParsed pf) (buildDict ex)
    hGe.1 hGe.2 hGp.2
  set parsed := buildParsed pf with hparsed
  set M := dictUpdate (buildDict ex) parsed with hMdef
  set cat1 := (M.map Prod.snd).insertionSort patLe with hc1
  have hcat1 : (do_merge pf ex false).catalog = cat1 := rfl
  have hperm : List.Perm cat1 (M.map Prod.snd) :=
    List.perm_insertionSort patLe _
  have hmapids : (M.map Prod.snd).map CanonicalPattern.id =
      M.map Prod.fst := by
    rw [List.map_map]
    exact List.map_congr_left (fun kv hkv => hGm.2 kv hkv)
  have hnodup1 : (cat1.map CanonicalPattern.id).Nodup := by
    rw [(hperm.map CanonicalPattern.id).nodup_iff, hmapids]
    exact hGm.1
  have hE2 : buildDict cat1 = cat1.map (fun p => (p.id, p)) :=
    buildDict_eq_map hnodup1
  have hE2keys : ((buildDict cat1).map Prod.fst).Nodup := by
    rw [hE2, List.map_map]
    exact hnodup1
  have hlkM : ∀ kv ∈ parsed, M.lookup kv.1 = some kv.2 := by
    intro kv hkv
    rw [hMdef, lookup_dictUpdate parsed (buildDict ex) kv.1 hGp.1,
      lookup_of_mem_nodup hGp.1 hkv]
    rfl
  have hlkE2 : ∀ kv ∈ parsed, (buildDict cat1).lookup kv.1 = some kv.2 := by
    intro kv hkv
    have hmem : kv ∈ M := mem_of_lookup_eq_some (hlkM kv hkv)
    have hsnd : kv.2 ∈ cat1 :=
      hperm.mem_iff.mpr (List.mem_map.mpr ⟨kv, hmem, rfl⟩)
    have hid : kv.2.id = kv.1 := hGp.2 kv hkv
    rw [hE2]
    apply lookup_of_mem_nodup
    · rw [List.map_map]
      exact hnodup1
    · exact List.mem_map.mpr ⟨kv.2, hsnd, by rw [hid]⟩
  have hM2 : dictUpdate (buildDict cat1) parsed = buildDict cat1 :=
    dictUpdate_eq_self parsed _ hE2keys hlkE2
  have hsndE2 : (buildDict cat1).map Prod.snd = cat1 := by
    rw [hE2, List.map_map]
    exact List.map_id cat1
  have hsorted : cat1.Sorted patLe := List.sorted_insertionSort patLe _
  rw [hcat1, do_merge_false_parts]
  refine ⟨?_, ?_, ?_⟩
  · show ((dictUpdate (buildDict cat1) parsed).map
      Prod.snd).insertionSort patLe = cat1
    rw [hM2, hsndE2]
    exact hsorted.insertionSort_eq
  · show sortIds ((parsed.map Prod.fst).filter
      (fun k => ((buildDict cat1).lookup k).isNone)) = []
    have hfil : (parsed.map Prod.fst).filter
        (fun k => ((buildDict cat1).lookup k).isNone) = [] := by
      rw [List.filter_eq_nil_iff]
      intro k hk
      obtain ⟨kv, hkv, rfl⟩ := List.mem_map.mp hk
      rw [hlkE2 kv hkv]
      simp
    rw [hfil]
    rfl
  · show sortIds ((parsed.map Prod.fst).filter
      (fun k => ((buildDict cat1).lookup k).isSome)) =
        sortIds (parsed.map Prod.fst)
    have hfil : (parsed.map Prod.fst).filter
        (fun k => ((buildDict cat1).lookup k).isSome) =
          parsed.map Prod.fst := by
      rw [List.filter_eq_self]
      intro k hk
      obtain ⟨kv, hkv, rfl⟩ := List.mem_map.mp hk
      rw [hlkE2 kv hkv]
      rfl
    rw [hfil]

/-- Witness for C1 amended at a concrete one-pattern merge. -/
theorem merge_second_run_witness :
    (do_merge [[rock3]] (do_merge [[rock3]] [] false).catalog
        false).catalog = (do_merge [[rock3]] [] false).catalog ∧
    (do_merge [[rock3]] (do_merge [[rock3]] [] false).catalog
        false).newIds = [] ∧
    (do_merge [[rock3]] (do_merge [[rock3]] [] false).catalog
        false).updatedIds = sortIds ((buildParsed [[rock3]]).map Prod.fst) :=
  merge_second_run [[rock3]] []

/-- C2: for every page whose success cache file already exists, re-running
the page driver performs no external render or recognition call and
returns exactly the content stored in the cache file, unchanged. -/
theorem process_page_cache_hit (oracle : PageOracle) (fs : PageFS)
    (cached : List CanonicalPattern) (h : fs.cacheFile = some cached) :
    process_page oracle fs =
      { result := .ok cached, fs := fs, renderCalls := 0, extractCalls := 0 } := by
  obtain ⟨cf, ef⟩ := fs
  simp only [PageFS.cacheFile] at h
  subst h
  rfl

/-- Witness for C2 at a concrete cached page. -/
theorem process_page_cache_hit_witness :
    process_page ⟨.ok [], fun _ => .ok []⟩ ⟨some [], none⟩ =
      { result := .ok [], fs := ⟨some [], none⟩,
        renderCalls := 0, extractCalls := 0 } :=
  process_page_cache_hit _ _ _ rfl

/-- C3 counterexample: a page whose error marker file exists but whose
success cache file does not IS re-processed: the driver performs the
render call and the recognition call again. -/
theorem errored_page_retried_cex :
    (process_page ⟨.ok [], fun _ => .ok []⟩
        ⟨none, some (chars "boom")⟩).renderCalls = 1 ∧
    (process_page ⟨.ok [], fun _ => .ok []⟩
        ⟨none, some (chars "boom")⟩).extractCalls = 1 :=
  ⟨rfl, rfl⟩

/-- C3 amended: a page that previously recorded a PageError (error marker
present, no success cache file) is retried by a subsequent run — the
driver performs the external render call again; only the success cache
file suppresses external calls. -/
theorem errored_page_retried (oracle : PageOracle) (fs : PageFS)
    (msg : List Char) (hcache : fs.cacheFile = none)
    (herr : fs.errorFile = some msg) :
    (process_page oracle fs).renderCalls = 1 := by
  obtain ⟨cf, ef⟩ := fs
  simp only [PageFS.cacheFile] at hcache
  subst hcache
  unfold process_page
  cases oracle.render with
  | error e => rfl
  | ok img =>
    dsimp only
    cases oracle.extract img with
    | error e =>
      dsimp only
      by_cases hc : caughtByProcessPage e <;> simp [hc]
    | ok raws => rfl

/-- Witness for C3 amended at a concrete errored page. -/
theorem errored_page_retried_witness :
    (process_page ⟨.ok [], fun _ => .ok []⟩
        ⟨none, some (chars "boom")⟩).renderCalls = 1 :=
  errored_page_retried _ _ (chars "boom") rfl rfl

/-! ### Claims about `normalize_pattern` -/

/-- The keys of the built steps dict are exactly the instrument map's
track ids, in order, whatever the raw data was. -/
theorem steps0_keys (rs : List (List Char × List Char)) :
    (steps0 rs).map Prod.fst = INSTRUMENT_MAP.map Prod.snd := by
  simp only [steps0, List.map_map]
  rfl

/-- Every required track id already has an entry in the built steps
dict. -/
theorem steps0_covers (rs : List (List Char × List Char)) :
    ∀ tid ∈ ALL_TRACK_IDS, ((steps0 rs).lookup tid).isSome := by
  intro tid htid
  apply lookup_isSome_of_mem_keys
  rw [steps0_keys]
  have hsub : ∀ x ∈ ALL_TRACK_IDS, x ∈ INSTRUMENT_MAP.map Prod.snd := by decide
  exact hsub tid htid

/-- The fill loop changes nothing when every listed key is present. -/
theorem fillMissing_eq_self (tids : List (List Char)) :
    ∀ st : List (List Char × List Char),
      (∀ tid ∈ tids, (st.lookup tid).isSome) → fillMissing tids st = st := by
  induction tids with
  | nil => intro st _; rfl
  | cons t ts ih =>
    intro st h
    have ht : (st.lookup t).isSome = true := h t (by simp)
    unfold fillMissing
    simp only [List.foldl_cons, ht, if_true]
    exact ih st (fun tid htid => h tid (by simp [htid]))

/-- Inversion for an accepted `normalize_pattern` run: the output's id is
the non-empty slug of the name and the steps dict is the one built over
`INSTRUMENT_MAP`. -/
theorem normalize_pattern_inv (raw : RawRecord) (p : CanonicalPattern)
    (h : normalize_pattern raw = some p) :
    p.id = name_to_id (raw.name.getD []) ∧ p.id ≠ [] ∧
    p.steps = steps0 raw.steps := by
  unfold normalize_pattern at h
  dsimp only at h
  split at h
  · exact absurd h (by simp)
  · split at h
    · exact absurd h (by simp)
    · split at h
      · exact absurd h (by simp)
      · rename_i hslug
        obtain rfl := Option.some_inj.mp h.symm
        refine ⟨rfl, hslug, ?_⟩
        dsimp only
        exact fillMissing_eq_self ALL_TRACK_IDS (steps0 raw.steps)
          (steps0_covers raw.steps)

/-- Each value the steps loop produces is 16 characters of 0/1. -/
theorem stepFor_valid (rs : List (List Char × List Char)) (pk : List Char) :
    (stepFor rs pk).length = 16 ∧ ∀ c ∈ stepFor rs pk, c = '0' ∨ c = '1' := by
  unfold stepFor
  by_cases hv : isValidStepStr ((rs.lookup pk).getD zeros16)
  · rw [if_pos hv]
    unfold isValidStepStr at hv
    simp only [Bool.and_eq_true, decide_eq_true_eq, List.all_eq_true] at hv
    refine ⟨hv.1, fun c hc => ?_⟩
    simpa using hv.2 c hc
  · rw [if_neg hv]
    refine ⟨by simp [zeros16], fun c hc => Or.inl ?_⟩
    exact List.eq_of_mem_replicate hc

/-- C5: every accepted output of `normalize_pattern` has a steps mapping
over exactly the 12 track ids (no more, no fewer), every value is 16
characters over {0,1}, and the id is non-empty. -/
theorem normalize_output_invariants (raw : RawRecord) (p : CanonicalPattern)
    (h : normalize_pattern raw = some p) :
    List.Perm (p.steps.map Prod.fst) ALL_TRACK_IDS ∧
    (∀ kv ∈ p.steps, kv.2.length = 16 ∧ ∀ c ∈ kv.2, c = '0' ∨ c = '1') ∧
    p.id ≠ [] := by
  obtain ⟨hid, hne, hsteps⟩ := normalize_pattern_inv raw p h
  refine ⟨?_, ?_, hne⟩
  · rw [hsteps, steps0_keys]
    exact List.isPerm_iff.mp (by decide)
  · rw [hsteps]
    rintro ⟨tid, s⟩ hmem
    obtain ⟨kv, hkv, heq⟩ := List.mem_map.mp hmem
    cases heq
    exact stepFor_valid raw.steps kv.1

/-- Witness for C5 at `sampleRaw`. -/
theorem normalize_output_invariants_witness :
    List.Perm (samplePattern.steps.map Prod.fst) ALL_TRACK_IDS ∧
    (∀ kv ∈ samplePattern.steps,
      kv.2.length = 16 ∧ ∀ c ∈ kv.2, c = '0' ∨ c = '1') ∧
    samplePattern.id ≠ [] :=
  normalize_output_invariants sampleRaw samplePattern (by decide)

/-- Looking a track id up in the built steps dict yields the processed
string for its pdf key (track ids are distinct across the map). -/
theorem lookup_steps0_of_mem (rs : List (List Char × List Char)) :
    ∀ (l : List (List Char × List Char)) (pk tid : List Char),
      (pk, tid) ∈ l → (l.map Prod.snd).Nodup →
      (l.map (fun kv => (kv.2, stepFor rs kv.1))).lookup tid =
        some (stepFor rs pk) := by
  intro l
  induction l with
  | nil => intro pk tid hmem _; cases hmem
  | cons kv rest ih =>
    intro pk tid hmem hnodup
    obtain ⟨k0, t0⟩ := kv
    rcases List.mem_cons.mp hmem with heq | hmem'
    · cases heq
      simp [List.lookup_cons]
    · have htid : tid ≠ t0 := by
        intro hh
        subst hh
        have : tid ∈ rest.map Prod.snd :=
          List.mem_map.mpr ⟨(pk, tid), hmem', rfl⟩
        exact (List.nodup_cons.mp hnodup).1 this
      have hbeq : (tid == t0) = false := beq_eq_false_iff_ne.mpr htid
      rw [List.map_cons, List.lookup_cons]
      simp only [hbeq]
      exact ih pk tid hmem' (List.nodup_cons.mp hnodup).2

/-- A missing or invalid raw bit string is processed to sixteen zeros. -/
theorem stepFor_malformed (rs : List (List Char × List Char)) (pk : List Char)
    (hbad : ∀ s, rs.lookup pk = some s → isValidStepStr s = false) :
    stepFor rs pk = zeros16 := by
  unfold stepFor
  cases hl : rs.lookup pk with
  | none =>
    simp only [Option.getD_none]
    split <;> rfl
  | some s => simp [hbad s hl]

/-- Whether `normalize_pattern` accepts a record does not depend on its
`steps` field at all. -/
theorem normalize_isSome_steps_irrelevant (raw : RawRecord)
    (steps' : List (List Char × List Char)) :
    (normalize_pattern { raw with steps := steps' }).isSome =
      (normalize_pattern raw).isSome := by
  unfold normalize_pattern
  by_cases c1 : (raw.grid_width.getD 0 : Int) ≠ 16
  · simp [c1]
  · by_cases c2 :
      containsSub (chars "break") (pyLower (raw.name.getD [])) = true
    · simp [c1, c2]
    · by_cases c3 : name_to_id (raw.name.getD []) = []
      · simp [c1, c2, c3]
      · simp [c1, c2, c3]

/-- C6: during `normalize_pattern`, a required instrument whose raw bit
string is absent, of wrong length, or over the wrong alphabet gets the
string of sixteen zeros in the output, and a malformed field never
causes rejection of the record (acceptance is independent of the steps
data; the function is total, so nothing is ever raised). -/
theorem malformed_field_zeroed (raw : RawRecord) (p : CanonicalPattern)
    (pk tid : List Char) (hmap : (pk, tid) ∈ INSTRUMENT_MAP)
    (h : normalize_pattern raw = some p)
    (hbad : ∀ s, raw.steps.lookup pk = some s → isValidStepStr s = false) :
    p.steps.lookup tid = some zeros16 ∧
    ∀ steps', (normalize_pattern { raw with steps := steps' }).isSome := by
  obtain ⟨-, -, hsteps⟩ := normalize_pattern_inv raw p h
  constructor
  · rw [hsteps]
    have hlk := lookup_steps0_of_mem raw.steps INSTRUMENT_MAP pk tid hmap
      (by decide)
    rw [show steps0 raw.steps =
      INSTRUMENT_MAP.map (fun kv => (kv.2, stepFor raw.steps kv.1)) from rfl]
    rw [hlk, stepFor_malformed raw.steps pk hbad]
  · intro steps'
    rw [normalize_isSome_steps_irrelevant raw steps', h]
    rfl

/-- Witness for C6: a record whose AC row is malformed ("xx") is accepted
and its "ac" track comes out as sixteen zeros. -/
theorem malformed_field_zeroed_witness :
    (samplePatternBad.steps.lookup (chars "ac") = some zeros16 ∧
      ∀ steps',
        (normalize_pattern { sampleRawBad with steps := steps' }).isSome) :=
  malformed_field_zeroed sampleRawBad samplePatternBad (chars "AC") (chars "ac")
    (by decide) (by decide)
    (fun s hs => by
      have hxx : chars "xx" = s := by simpa [sampleRawBad] using hs
      subst hxx
      decide)

/-- C9: `normalize_pattern` rejects every record whose `grid_width` is not
16, including a record missing the field entirely (the `raw.get` default
0 applies and is rejected). -/
theorem normalize_rejects_bad_width (raw : RawRecord)
    (h : ∀ w, raw.grid_width = some w → w ≠ 16) :
    normalize_pattern raw = none := by
  have hw : raw.grid_width.getD 0 ≠ 16 := by
    cases hg : raw.grid_width with
    | none => simp
    | some w => simpa using h w hg
  unfold normalize_pattern
  simp [hw]

/-- Witness for C9 at a record with no `grid_width` field. -/
theorem normalize_rejects_bad_width_witness :
    normalize_pattern ⟨some (chars "Rock: 3"), none, []⟩ = none :=
  normalize_rejects_bad_width _ (fun w hw => by cases hw)

/-- Every character the non-slug substitution emits is in `[a-z0-9-]`. -/
theorem mem_subNonSlug {c : Char} {l : List Char} (h : c ∈ subNonSlug l) :
    isSlugChar c = true := by
  obtain ⟨a, -, rfl⟩ := List.mem_map.mp h
  split
  · assumption
  · rfl

/-- Rewriting equation: a hyphen inside a run is dropped. -/
theorem collapse_cons_hyphen_true (rest : List Char) :
    collapseHyphensAux true ('-' :: rest) = collapseHyphensAux true rest := by
  simp [collapseHyphensAux]

/-- Rewriting equation: a hyphen starting a run is kept. -/
theorem collapse_cons_hyphen_false (rest : List Char) :
    collapseHyphensAux false ('-' :: rest) =
      '-' :: collapseHyphensAux true rest := by
  simp [collapseHyphensAux]

/-- Rewriting equation: a non-hyphen is kept and ends any run. -/
theorem collapse_cons_other (b : Bool) (c : Char) (rest : List Char)
    (hc : c ≠ '-') :
    collapseHyphensAux b (c :: rest) = c :: collapseHyphensAux false rest := by
  simp [collapseHyphensAux, hc]

/-- The collapse loop only ever emits characters of its input. -/
theorem mem_collapseHyphensAux {c : Char} :
    ∀ (b : Bool) (l : List Char), c ∈ collapseHyphensAux b l → c ∈ l := by
  intro b l
  induction l generalizing b with
  | nil => intro h; cases h
  | cons a rest ih =>
    intro h
    by_cases ha : a = '-'
    · subst ha
      cases b with
      | true =>
        rw [collapse_cons_hyphen_true] at h
        exact List.mem_cons_of_mem _ (ih true h)
      | false =>
        rw [collapse_cons_hyphen_false] at h
        rcases List.mem_cons.mp h with rfl | h'
        · exact List.mem_cons_self _ _
        · exact List.mem_cons_of_mem _ (ih true h')
    · rw [collapse_cons_other b a rest ha] at h
      rcases List.mem_cons.mp h with rfl | h'
      · exact List.mem_cons_self _ _
      · exact List.mem_cons_of_mem _ (ih false h')

/-- Inside a hyphen run, the next emitted character is not a hyphen. -/
theorem collapse_true_head :
    ∀ (l : List Char) (a : Char),
      (collapseHyphensAux true l).head? = some a → a ≠ '-' := by
  intro l
  induction l with
  | nil => intro a h; cases h
  | cons c rest ih =>
    intro a h
    by_cases hc : c = '-'
    · subst hc
      rw [collapse_cons_hyphen_true] at h
      exact ih a h
    · rw [collapse_cons_other true c rest hc] at h
      rw [List.head?_cons, Option.some_inj] at h
      exact h ▸ hc

/-- The collapse loop's output never has two adjacent hyphens. -/
theorem collapse_chain (l : List Char) :
    ∀ b, (collapseHyphensAux b l).Chain' (fun a b => ¬(a = '-' ∧ b = '-')) := by
  induction l with
  | nil => intro b; exact List.chain'_nil
  | cons c rest ih =>
    intro b
    by_cases hc : c = '-'
    · subst hc
      cases b with
      | true => rw [collapse_cons_hyphen_true]; exact ih true
      | false =>
        rw [collapse_cons_hyphen_false, List.chain'_cons']
        refine ⟨?_, ih true⟩
        intro y hy hcontra
        exact collapse_true_head rest y (Option.mem_def.mp hy) hcontra.2
    · rw [collapse_cons_other b c rest hc, List.chain'_cons']
      exact ⟨fun y _ hcontra => hc hcontra.1, ih false⟩

/-- Dropping a matching run from the front preserves chain properties. -/
theorem chain'_dropWhile {R : Char → Char → Prop} (p : Char → Bool) :
    ∀ l : List Char, l.Chain' R → (l.dropWhile p).Chain' R := by
  intro l
  induction l with
  | nil => intro h; exact h
  | cons c rest ih =>
    intro h
    rw [List.dropWhile_cons]
    split
    · exact ih h.tail
    · exact h

/-- Reversal preserves chain properties of symmetric relations. -/
theorem chain'_reverse_symm {R : Char → Char → Prop}
    (hsymm : ∀ a b, R a b → R b a) (l : List Char) (h : l.Chain' R) :
    l.reverse.Chain' R := by
  rw [List.chain'_reverse]
  exact h.imp hsymm

/-- Stripping preserves chain properties of symmetric relations. -/
theorem pyStrip_chain {R : Char → Char → Prop}
    (hsymm : ∀ a b, R a b → R b a) (p : Char → Bool) (l : List Char)
    (h : l.Chain' R) : (pyStrip p l).Chain' R := by
  unfold pyStrip
  exact chain'_reverse_symm hsymm _
    (chain'_dropWhile p _ (chain'_reverse_symm hsymm _ (chain'_dropWhile p l h)))

/-- Stripping only ever keeps characters of its input. -/
theorem mem_pyStrip {c : Char} {p : Char → Bool} {l : List Char}
    (h : c ∈ pyStrip p l) : c ∈ l := by
  unfold pyStrip at h
  rw [List.mem_reverse] at h
  have h1 : c ∈ (l.dropWhile p).reverse := (List.dropWhile_sublist p).subset h
  rw [List.mem_reverse] at h1
  exact (List.dropWhile_sublist p).subset h1

/-- The first character surviving a strip does not match the predicate. -/
theorem pyStrip_head {p : Char → Bool} {l : List Char} {a : Char}
    (h : (pyStrip p l).head? = some a) : p a = false := by
  have hx : ((l.dropWhile p).reverse.takeWhile p) ++
      ((l.dropWhile p).reverse.dropWhile p) = (l.dropWhile p).reverse :=
    List.takeWhile_append_dropWhile p ((l.dropWhile p).reverse)
  have hm : l.dropWhile p =
      pyStrip p l ++ ((l.dropWhile p).reverse.takeWhile p).reverse := by
    unfold pyStrip
    calc l.dropWhile p = ((l.dropWhile p).reverse).reverse :=
          (List.reverse_reverse _).symm
    _ = (((l.dropWhile p).reverse.takeWhile p) ++
          ((l.dropWhile p).reverse.dropWhile p)).reverse := by rw [hx]
    _ = ((l.dropWhile p).reverse.dropWhile p).reverse ++
          ((l.dropWhile p).reverse.takeWhile p).reverse := by
        rw [List.reverse_append]
  have hhead : (l.dropWhile p).head? = some a := by
    rw [hm, List.head?_append, h]
    rfl
  have hnot := List.head?_dropWhile_not p l
  rw [hhead] at hnot
  exact hnot

/-- The last character surviving a strip does not match the predicate. -/
theorem pyStrip_getLast {p : Char → Bool} {l : List Char} {a : Char}
    (h : (pyStrip p l).getLast? = some a) : p a = false := by
  unfold pyStrip at h
  rw [List.getLast?_eq_head?_reverse, List.reverse_reverse] at h
  have hnot := List.head?_dropWhile_not p ((l.dropWhile p).reverse)
  rw [h] at hnot
  exact hnot

/-- C7: for every input, the output of the slugifier contains only
lowercase letters, digits and hyphens, has no leading hyphen, no
trailing hyphen, and no two consecutive hyphens. -/
theorem slugify_shape (s : List Char) :
    (∀ c ∈ name_to_id s, isSlugChar c = true) ∧
    (∀ a, (name_to_id s).head? = some a → a ≠ '-') ∧
    (∀ a, (name_to_id s).getLast? = some a → a ≠ '-') ∧
    (name_to_id s).Chain' (fun a b => ¬(a = '-' ∧ b = '-')) := by
  refine ⟨?_, ?_, ?_, ?_⟩
  · intro c hc
    exact mem_subNonSlug (mem_collapseHyphensAux false _ (mem_pyStrip hc))
  · intro a ha
    simpa using pyStrip_head ha
  · intro a ha
    simpa using pyStrip_getLast ha
  · exact pyStrip_chain (fun a b hab hba => hab ⟨hba.2, hba.1⟩) _ _
      (collapse_chain _ false)

/-- Witness for C7 at a concrete label. -/
theorem slugify_shape_witness :
    (∀ c ∈ name_to_id (chars "Rock: 3"), isSlugChar c = true) ∧
    (∀ a, (name_to_id (chars "Rock: 3")).head? = some a → a ≠ '-') ∧
    (∀ a, (name_to_id (chars "Rock: 3")).getLast? = some a → a ≠ '-') ∧
    (name_to_id (chars "Rock: 3")).Chain'
      (fun a b => ¬(a = '-' ∧ b = '-')) :=
  slugify_shape (chars "Rock: 3")

/-- C4 counterexample: a rendering failure (pdftoppm producing no
output raises RuntimeError, which nothing catches) aborts the whole
range scan — the second page of the range is never reached. -/
theorem page_failure_aborts_scan_cex :
    runRange
      [(⟨.error (.runtimeError (chars "pdftoppm produced no output")),
          fun _ => .ok []⟩, ⟨none, none⟩),
       (⟨.ok [], fun _ => .ok []⟩, ⟨none, none⟩)] =
      .error (.runtimeError (chars "pdftoppm produced no output")) := rfl

/-- C4 amended: only recognition failures raised as ValueError or
json.JSONDecodeError are local to a page: the driver writes the error
marker, returns an empty result for that page, and the range scan
continues with the remaining pages.  Render failures and other
exception types propagate and abort the scan. -/
theorem caught_failure_is_local (oracle : PageOracle) (fs : PageFS)
    (img : ImageBytes) (e : PyExc) (rest : List (PageOracle × PageFS))
    (hcache : fs.cacheFile = none) (hrender : oracle.render = .ok img)
    (hextract : oracle.extract img = .error e)
    (hcaught : caughtByProcessPage e = true) :
    (process_page oracle fs).result = .ok [] ∧
    (process_page oracle fs).fs.errorFile = some e.msg ∧
    runRange ((oracle, fs) :: rest) = (runRange rest).map ([] :: ·) := by
  obtain ⟨cf, ef⟩ := fs
  simp only [PageFS.cacheFile] at hcache
  subst hcache
  have hp : process_page oracle ⟨none, ef⟩ =
      { result := .ok [], fs := ⟨none, some e.msg⟩,
        renderCalls := 1, extractCalls := 1 } := by
    unfold process_page
    rw [hrender]
    dsimp only
    rw [hextract]
    dsimp only
    rw [if_pos hcaught]
  refine ⟨by rw [hp], by rw [hp], ?_⟩
  rw [runRange, hp]

/-- Witness for C4 amended at a concrete caught recognition failure. -/
theorem caught_failure_is_local_witness :
    (process_page ⟨.ok [], fun _ => .error (.valueError (chars "no JSON"))⟩
        ⟨none, none⟩).result = .ok [] ∧
    (process_page ⟨.ok [], fun _ => .error (.valueError (chars "no JSON"))⟩
        ⟨none, none⟩).fs.errorFile =
      some (PyExc.valueError (chars "no JSON")).msg ∧
    runRange [(⟨.ok [], fun _ => .error (.valueError (chars "no JSON"))⟩,
        ⟨none, none⟩)] = (runRange []).map ([] :: ·) :=
  caught_failure_is_local _ _ [] (.valueError (chars "no JSON")) []
    rfl rfl rfl rfl

/-- The colon scanner works online: its output on a concatenation is the
output on the prefix followed by the output on the suffix resumed from
the state the prefix leaves behind. -/
theorem subColonAux_append (repl : Char) :
    ∀ (u : List Char) (b : Bool) (v : List Char),
      subColonAux repl b (u ++ v) =
        subColonAux repl b u ++ subColonAux repl (colonStateAux b u) v := by
  intro u
  induction u with
  | nil => intro b v; rfl
  | cons c rest ih =>
    intro b v
    have e1 : subColonAux repl b (c :: (rest ++ v)) =
        if b && isPySpace c then subColonAux repl true (rest ++ v)
        else if c = ':' then repl :: subColonAux repl true (rest ++ v)
        else c :: subColonAux repl false (rest ++ v) := rfl
    have e2 : subColonAux repl b (c :: rest) =
        if b && isPySpace c then subColonAux repl true rest
        else if c = ':' then repl :: subColonAux repl true rest
        else c :: subColonAux repl false rest := rfl
    have e3 : colonStateAux b (c :: rest) =
        if b && isPySpace c then colonStateAux true rest
        else if c = ':' then colonStateAux true rest
        else colonStateAux false rest := rfl
    show subColonAux repl b (c :: (rest ++ v)) = _
    rw [e1, e2, e3]
    cases h1 : (b && isPySpace c) with
    | true =>
      simp only [eq_self_iff_true, if_true]
      exact ih true v
    | false =>
      simp only [Bool.false_eq_true, if_false]
      by_cases h2 : c = ':'
      · subst h2
        simp only [eq_self_iff_true, if_true, List.cons_append]
        rw [ih true v]
      · simp only [if_neg h2, List.cons_append]
        rw [ih false v]

/-- In any state, a colon is replaced by exactly one substitute
character and the scanner enters the whitespace-skipping state. -/
theorem subColonAux_cons_colon (repl : Char) (b : Bool) (rest : List Char) :
    subColonAux repl b (':' :: rest) = repl :: subColonAux repl true rest := by
  have hc : isPySpace ':' = false := rfl
  cases b <;> simp [subColonAux, hc]

/-- The whitespace run following a colon is consumed entirely. -/
theorem subColonAux_skip_ws (repl : Char) :
    ∀ (w v : List Char), (∀ c ∈ w, isPySpace c = true) →
      subColonAux repl true (w ++ v) = subColonAux repl true v := by
  intro w
  induction w with
  | nil => intro v _; rfl
  | cons c rest ih =>
    intro v hw
    have hc : isPySpace c = true := hw c (List.mem_cons_self _ _)
    show subColonAux repl true (c :: (rest ++ v)) = _
    simp only [subColonAux, hc, Bool.and_self, if_true]
    exact ih v (fun x hx => hw x (List.mem_cons_of_mem _ hx))

/-- Once the following character is not whitespace, the two scanner
states agree. -/
theorem subColonAux_true_eq_false (repl : Char) (v : List Char)
    (hv : ∀ c, v.head? = some c → isPySpace c = false) :
    subColonAux repl true v = subColonAux repl false v := by
  cases v with
  | nil => rfl
  | cons c rest =>
    have hc : isPySpace c = false := hv c rfl
    simp [subColonAux, hc]

/-- C10: the colon substitution in `name_to_id` applies to every
colon-plus-whitespace occurrence anywhere in the label, not only a
trailing numeric suffix: around ANY context `u`, any whitespace run `w`
and any remainder `v`, the occurrence `':' ++ w` becomes exactly one
hyphen; moreover no colon ever survives into any slug, and the interior
colons of "a: b: 1" indeed yield "a-b-1". -/
theorem name_to_id_colon_everywhere (u w v : List Char)
    (hw : ∀ c ∈ w, isPySpace c = true)
    (hv : ∀ c, v.head? = some c → isPySpace c = false) :
    (subColonAux '-' false (u ++ ':' :: (w ++ v)) =
      subColonAux '-' false u ++ '-' :: subColonAux '-' false v) ∧
    (∀ s : List Char, ':' ∉ name_to_id s) ∧
    name_to_id (chars "a: b: 1") = chars "a-b-1" := by
  refine ⟨?_, ?_, by decide⟩
  · rw [subColonAux_append '-' u false (':' :: (w ++ v)),
      subColonAux_cons_colon, subColonAux_skip_ws '-' w v hw,
      subColonAux_true_eq_false '-' v hv]
  · intro s hmem
    have hslug :=
      mem_subNonSlug (mem_collapseHyphensAux false _ (mem_pyStrip hmem))
    exact absurd hslug (by decide)

/-- Witness for C10 at a concrete interior occurrence: context "a",
whitespace " ", remainder "b". -/
theorem name_to_id_colon_everywhere_witness :
    (subColonAux '-' false (['a'] ++ ':' :: ([' '] ++ ['b'])) =
      subColonAux '-' false ['a'] ++ '-' :: subColonAux '-' false ['b']) ∧
    (∀ s : List Char, ':' ∉ name_to_id s) ∧
    name_to_id (chars "a: b: 1") = chars "a-b-1" :=
  name_to_id_colon_everywhere ['a'] [' '] ['b'] (by decide)
    (fun c hc => by injection hc with h; subst h; rfl)

end Xox
